import Mathlib

/-!
Verification of the block-scan engine in `apps/crossing-the-narrow-sea`.

The development shallowly embeds the two source files:

* `src/scan-runner.ts` — the ordered-commit scan engine (`runScan`): a
  height queue shared by workers (`heightQueue` / `getNextHeight`), an
  in-order commit tracker (`nextToCommit`, `completedHeights`,
  `markCompleted`), and a per-height exponential-backoff retry loop inside
  `worker`.
* `src/capture-consensus.ts` — the naive consensus-capture variant, whose
  worker writes the checkpoint unconditionally at every 100th height, and
  whose `main` rejects falsy (0 / NaN) start or end heights before running.

Heights and delays are natural numbers.  JavaScript `Set` objects are
`Finset ℕ`; the call log of `setLastProcessedBlockHeight` is a `List ℕ`
of written checkpoint values, in write order.  The mutexes in the source
serialize all tracker and allocator transitions, so those components are
embedded as sequential state-passing functions driven by an arbitrary
call sequence; worker interleavings for the (mutex-free) naive variant are
an explicit scheduler over per-worker program counters.
-/

namespace NarrowSea

/-! ### Ordered commit tracker (`scan-runner.ts`, lines 70-81) -/

/-- State of the ordered commit tracker of `runScan`:
`nextToCommit` (line 70), the JS set `completedHeights` (line 71), and the
ordered log of values passed to `setLastProcessedBlockHeight` (line 78). -/
structure Tracker where
  nextToCommit : ℕ
  completedHeights : Finset ℕ
  checkpointWrites : List ℕ
deriving DecidableEq

/-- Tracker state at the start of a run: cursor at the resolved scan start,
empty completed set, no checkpoint writes yet (lines 70-71). -/
def initTracker (scanStart : ℕ) : Tracker :=
  ⟨scanStart, ∅, []⟩

/-- The commit loop of `markCompleted` (lines 76-80):
`while (completedHeights.has(nextToCommit)) { delete; write; advance }`.
Each iteration removes one member of the (finite) set, so the loop runs at
most `card` iterations; the fuel argument makes that termination argument
explicit while keeping the definition kernel-computable.  Returns the new
cursor, the new set, and the checkpoint values written, in order. -/
def drainAux : ℕ → ℕ → Finset ℕ → ℕ × Finset ℕ × List ℕ
  | 0, n, s => (n, s, [])
  | fuel + 1, n, s =>
    if n ∈ s then
      let r := drainAux fuel (n + 1) (s.erase n)
      (r.1, r.2.1, n :: r.2.2)
    else
      (n, s, [])

/-- The commit loop, run with exactly enough fuel for the while loop. -/
def drain (n : ℕ) (s : Finset ℕ) : ℕ × Finset ℕ × List ℕ :=
  drainAux s.card n s

/-- `markCompleted(height)` (lines 73-81): under the commit mutex, add
`height` to the completed set, then flush every now-contiguous height,
writing each to the checkpoint store. -/
def markCompleted (t : Tracker) (height : ℕ) : Tracker :=
  let r := drain t.nextToCommit (insert height t.completedHeights)
  ⟨r.1, r.2.1, t.checkpointWrites ++ r.2.2⟩

/-- A run of `markCompleted` calls in their serialization order (the commit
mutex serializes any interleaving of worker calls into such a sequence). -/
def runMarks (ms : List ℕ) (t : Tracker) : Tracker :=
  ms.foldl markCompleted t

/-- If the cursor is not yet completed, the commit loop exits immediately,
whatever the fuel. -/
lemma drainAux_not_mem (fuel n : ℕ) (s : Finset ℕ) (h : n ∉ s) :
    drainAux fuel n s = (n, s, []) := by
  cases fuel with
  | zero => rfl
  | succ fuel => simp [drainAux, h]

/-- Specification of the commit loop: the final cursor is past its start and
not completed; the set loses exactly the interval the cursor walked over;
that interval was fully completed; and the written checkpoints are exactly
the consecutive heights from the old cursor up to the new cursor. -/
lemma drainAux_spec (fuel : ℕ) :
    ∀ (n : ℕ) (s : Finset ℕ), s.card ≤ fuel →
      n ≤ (drainAux fuel n s).1 ∧
      (drainAux fuel n s).1 ∉ (drainAux fuel n s).2.1 ∧
      (drainAux fuel n s).2.1 = s \ Finset.Ico n (drainAux fuel n s).1 ∧
      Finset.Ico n (drainAux fuel n s).1 ⊆ s ∧
      (drainAux fuel n s).2.2 = List.range' n ((drainAux fuel n s).1 - n) := by
  induction fuel with
  | zero =>
    intro n s hcard
    have hs : s = ∅ := Finset.card_eq_zero.mp (Nat.le_zero.mp hcard)
    subst hs
    simp [drainAux]
  | succ fuel ih =>
    intro n s hcard
    by_cases hmem : n ∈ s
    · have hcard' : (s.erase n).card ≤ fuel := by
        rw [Finset.card_erase_of_mem hmem]; omega
      obtain ⟨h1, h2, h3, h4, h5⟩ := ih (n + 1) (s.erase n) hcard'
      simp only [drainAux, if_pos hmem]
      refine ⟨by omega, h2, ?_, ?_, ?_⟩
      · rw [h3]
        ext a
        by_cases has : a ∈ s <;>
          (simp [Finset.mem_sdiff, Finset.mem_erase, Finset.mem_Ico, has]; try omega)
      · intro a ha
        rw [Finset.mem_Ico] at ha
        rcases Nat.eq_or_lt_of_le ha.1 with heq | hlt
        · exact heq ▸ hmem
        · have : a ∈ Finset.Ico (n + 1) (drainAux fuel (n + 1) (s.erase n)).1 := by
            rw [Finset.mem_Ico]; omega
          exact Finset.mem_of_mem_erase (h4 this)
      · rw [h5]
        have hn : (drainAux fuel (n + 1) (s.erase n)).1 - n =
            ((drainAux fuel (n + 1) (s.erase n)).1 - (n + 1)) + 1 := by omega
        rw [hn, List.range'_succ]
    · rw [drainAux_not_mem _ _ _ hmem]
      simp [hmem]

/-- Specification of `drain`, the fuel argument discharged. -/
lemma drain_spec (n : ℕ) (s : Finset ℕ) :
    n ≤ (drain n s).1 ∧
    (drain n s).1 ∉ (drain n s).2.1 ∧
    (drain n s).2.1 = s \ Finset.Ico n (drain n s).1 ∧
    Finset.Ico n (drain n s).1 ⊆ s ∧
    (drain n s).2.2 = List.range' n ((drain n s).1 - n) :=
  drainAux_spec s.card n s le_rfl

/-- The fuel bound is irrelevant once it covers the set's size: any two
sufficient bounds give the same result. -/
lemma drainAux_congr (fuel : ℕ) :
    ∀ (fuel' n : ℕ) (s : Finset ℕ), s.card ≤ fuel → s.card ≤ fuel' →
      drainAux fuel n s = drainAux fuel' n s := by
  induction fuel with
  | zero =>
    intro fuel' n s hcard _
    have hs : s = ∅ := Finset.card_eq_zero.mp (Nat.le_zero.mp hcard)
    subst hs
    rw [drainAux_not_mem _ _ _ (Finset.not_mem_empty n),
      drainAux_not_mem _ _ _ (Finset.not_mem_empty n)]
  | succ fuel ih =>
    intro fuel' n s hcard hcard'
    by_cases hmem : n ∈ s
    · have hpos : 0 < s.card := Finset.card_pos.mpr ⟨n, hmem⟩
      obtain ⟨k, hk⟩ : ∃ k, fuel' = k + 1 := ⟨fuel' - 1, by omega⟩
      subst hk
      have he : (s.erase n).card = s.card - 1 := Finset.card_erase_of_mem hmem
      simp only [drainAux, if_pos hmem]
      rw [ih k (n + 1) (s.erase n) (by omega) (by omega)]
    · rw [drainAux_not_mem _ _ _ hmem, drainAux_not_mem _ _ _ hmem]

/-- The fueled loop with any sufficient fuel equals the source's unbounded
while loop (`drain`). -/
lemma drainAux_fuel_irrelevant (fuel n : ℕ) (s : Finset ℕ) (h : s.card ≤ fuel) :
    drainAux fuel n s = drain n s :=
  drainAux_congr fuel s.card n s h le_rfl

/-- Invariant of the tracker after a serialized sequence of `markCompleted`
calls whose reported heights are `seen`: the cursor is at or past the scan
start and is itself not completed; pending completions were all reported;
every height below the cursor was reported; every reported height at or
above the cursor is still pending; and the checkpoint log is exactly the
consecutive heights from the scan start up to (excluding) the cursor. -/
def TrackerInv (scanStart : ℕ) (seen : Finset ℕ) (t : Tracker) : Prop :=
  scanStart ≤ t.nextToCommit ∧
  t.nextToCommit ∉ t.completedHeights ∧
  t.completedHeights ⊆ seen ∧
  (∀ i, scanStart ≤ i → i < t.nextToCommit → i ∈ seen) ∧
  (∀ i, t.nextToCommit ≤ i → i ∈ seen → i ∈ t.completedHeights) ∧
  t.checkpointWrites = List.range' scanStart (t.nextToCommit - scanStart)

lemma trackerInv_init (scanStart : ℕ) :
    TrackerInv scanStart ∅ (initTracker scanStart) := by
  refine ⟨le_rfl, ?_, ?_, ?_, ?_, ?_⟩ <;>
    simp [initTracker]

lemma trackerInv_markCompleted {scanStart : ℕ} {seen : Finset ℕ} {t : Tracker}
    (hinv : TrackerInv scanStart seen t) (h : ℕ) :
    TrackerInv scanStart (insert h seen) (markCompleted t h) := by
  obtain ⟨i1, i2, i3, i4, i5, i6⟩ := hinv
  obtain ⟨d1, d2, d3, d4, d5⟩ :=
    drain_spec t.nextToCommit (insert h t.completedHeights)
  refine ⟨by simp only [markCompleted]; omega, ?_, ?_, ?_, ?_, ?_⟩
  · simpa only [markCompleted] using d2
  · simp only [markCompleted]
    rw [d3]
    intro a ha
    rw [Finset.mem_sdiff, Finset.mem_insert] at ha
    rcases ha.1 with rfl | haC
    · exact Finset.mem_insert_self a seen
    · exact Finset.mem_insert_of_mem (i3 haC)
  · simp only [markCompleted]
    intro i hsi hicur
    by_cases hic : i < t.nextToCommit
    · exact Finset.mem_insert_of_mem (i4 i hsi hic)
    · have : i ∈ Finset.Ico t.nextToCommit
          (drain t.nextToCommit (insert h t.completedHeights)).1 := by
        rw [Finset.mem_Ico]; omega
      have hmem := d4 this
      rw [Finset.mem_insert] at hmem
      rcases hmem with rfl | hmem
      · exact Finset.mem_insert_self i seen
      · exact Finset.mem_insert_of_mem (i3 hmem)
  · simp only [markCompleted]
    intro i hcur hi
    rw [d3, Finset.mem_sdiff, Finset.mem_insert, Finset.mem_Ico]
    rw [Finset.mem_insert] at hi
    constructor
    · rcases hi with rfl | hi
      · exact Or.inl rfl
      · exact Or.inr (i5 i (by omega) hi)
    · omega
  · simp only [markCompleted]
    rw [i6, d5]
    have hc : scanStart + (t.nextToCommit - scanStart) = t.nextToCommit := by
      omega
    have := List.range'_append_1 scanStart (t.nextToCommit - scanStart)
      ((drain t.nextToCommit (insert h t.completedHeights)).1 - t.nextToCommit)
    rw [hc] at this
    rw [this]
    congr 1
    omega

lemma trackerInv_runMarks {scanStart : ℕ} {seen : Finset ℕ} {t : Tracker}
    (hinv : TrackerInv scanStart seen t) (ms : List ℕ) :
    TrackerInv scanStart (seen ∪ ms.toFinset) (runMarks ms t) := by
  induction ms generalizing seen t with
  | nil => simpa [runMarks] using hinv
  | cons h tl ih =>
    have step := trackerInv_markCompleted hinv h
    have := ih step
    have hseen : insert h seen ∪ tl.toFinset = seen ∪ (h :: tl).toFinset := by
      ext a
      simp only [Finset.mem_union, Finset.mem_insert, List.toFinset_cons]
      tauto
    rw [hseen] at this
    simpa [runMarks] using this

/-- The tracker invariant for a full run from the initial state. -/
lemma trackerInv_run (scanStart : ℕ) (ms : List ℕ) :
    TrackerInv scanStart ms.toFinset (runMarks ms (initTracker scanStart)) := by
  have := trackerInv_runMarks (trackerInv_init scanStart) ms
  simpa using this

lemma nextToCommit_le_markCompleted (t : Tracker) (h : ℕ) :
    t.nextToCommit ≤ (markCompleted t h).nextToCommit :=
  (drain_spec t.nextToCommit (insert h t.completedHeights)).1

lemma checkpointWrites_prefix_markCompleted (t : Tracker) (h : ℕ) :
    t.checkpointWrites <+: (markCompleted t h).checkpointWrites :=
  ⟨(drain t.nextToCommit (insert h t.completedHeights)).2.2, rfl⟩

lemma nextToCommit_le_runMarks (ms : List ℕ) (t : Tracker) :
    t.nextToCommit ≤ (runMarks ms t).nextToCommit := by
  induction ms generalizing t with
  | nil => exact le_rfl
  | cons h tl ih =>
    exact le_trans (nextToCommit_le_markCompleted t h)
      (by simpa [runMarks] using ih (markCompleted t h))

lemma checkpointWrites_prefix_runMarks (ms : List ℕ) (t : Tracker) :
    t.checkpointWrites <+: (runMarks ms t).checkpointWrites := by
  induction ms generalizing t with
  | nil => exact List.prefix_rfl
  | cons h tl ih =>
    exact List.IsPrefix.trans (checkpointWrites_prefix_markCompleted t h)
      (by simpa [runMarks] using ih (markCompleted t h))

/-! ### Height allocator (`scan-runner.ts`, lines 63-68) -/

/-- The shared height queue
`Array.from({length: Math.max(end - scanStart + 1, 0)}, (_, i) => scanStart + i)`
(lines 63-66).  Over naturals, `e + 1 - s` is exactly
`Math.max(end - scanStart + 1, 0)`. -/
def heightQueue (scanStart e : ℕ) : List ℕ :=
  List.range' scanStart (e + 1 - scanStart)

/-- `getNextHeight` (lines 67-68): shift the front of the queue, or signal
exhaustion with `null` (here `none`).  The source function can only return
a height or `null`; it has no error outcome. -/
def getNextHeight (q : List ℕ) : Option ℕ × List ℕ :=
  match q with
  | [] => (none, [])
  | h :: rest => (some h, rest)

/-- A sequence of `calls` invocations of `getNextHeight` threading the
queue state (the allocator is only touched via this function), returning
every result in call order together with the final queue. -/
def drainQueue : ℕ → List ℕ → List (Option ℕ) × List ℕ
  | 0, q => ([], q)
  | calls + 1, q =>
    let r := getNextHeight q
    let rest := drainQueue calls r.2
    (r.1 :: rest.1, rest.2)

lemma drainQueue_spec (calls : ℕ) :
    ∀ q : List ℕ, q.length ≤ calls →
      (drainQueue calls q).1 = q.map some ++ List.replicate (calls - q.length) none ∧
      (drainQueue calls q).2 = [] := by
  induction calls with
  | zero =>
    intro q hq
    have : q = [] := List.eq_nil_of_length_eq_zero (Nat.le_zero.mp hq)
    subst this
    simp [drainQueue]
  | succ calls ih =>
    intro q hq
    match q with
    | [] =>
      obtain ⟨h1, h2⟩ := ih [] (Nat.zero_le _)
      simp only [drainQueue, getNextHeight]
      simp only [List.length_nil, Nat.sub_zero, List.map_nil, List.nil_append] at h1 ⊢
      rw [h1, h2]
      exact ⟨rfl, rfl⟩
    | h :: rest =>
      have hlen : rest.length ≤ calls := by
        simp only [List.length_cons] at hq
        omega
      obtain ⟨h1, h2⟩ := ih rest hlen
      simp only [drainQueue, getNextHeight]
      rw [h1, h2]
      refine ⟨?_, rfl⟩
      simp only [List.map_cons, List.cons_append, List.length_cons]
      have : calls + 1 - (rest.length + 1) = calls - rest.length := by omega
      rw [this]

/-! ### Start resolution (`scan-runner.ts`, lines 56-57) -/

/-- `scanStart = Math.max(start, resumeFrom ?? start)` where `resumeFrom`
is `getLastProcessedBlockHeight(db, chain)` (`some` a persisted checkpoint,
or `none` when absent). -/
def scanStartOf (start : ℕ) (resumeFrom : Option ℕ) : ℕ :=
  max start (resumeFrom.getD start)

/-! ### Retrying worker (`scan-runner.ts`, lines 83-118) -/

/-- One attempt at a height's unit of work, as the outcomes its three
fallible stages would have on this attempt: the block fetch
(`getBlockHash` / `getBlock` / `getEventsAt`, lines 90-92, combined), the
event sink (`processXdmEvents`, lines 98-106), and the checkpoint write
performed inside `markCompleted` (`setLastProcessedBlockHeight`, line 78).
An `Except.error` value means that stage would throw. -/
structure Attempt where
  fetch : Except String Unit
  sink : Except String Unit
  commit : Except String Unit

/-- The body of the worker's `try` block (lines 89-109): fetch, then
process, then `await markCompleted(h)`; the first stage that throws aborts
the body with its error.  Note that the checkpoint write happens inside
this `try`. -/
def tryBody (a : Attempt) : Except String Unit := do
  a.fetch
  a.sink
  a.commit

/-- `backoff = Math.min(backoff * 2, retryMaxBackoffMs)` (line 114). -/
def nextBackoff (maxBackoff backoff : ℕ) : ℕ :=
  min (backoff * 2) maxBackoff

/-- The worker's inner retry loop for one height (lines 88-116), driven by
the list of attempt outcomes the environment will produce: on success the
loop breaks; on any thrown error the worker sleeps the current backoff,
doubles it (capped), and retries.  Returns the backoff delays slept, in
order, and whether the height completed within the supplied attempts (the
source loop is unbounded; a `false` simply means the modelled prefix of
attempts ended with the height still being retried). -/
def retryLoop (maxBackoff : ℕ) : List Attempt → ℕ → List ℕ × Bool
  | [], _ => ([], false)
  | a :: rest, backoff =>
    match tryBody a with
    | .ok _ => ([], true)
    | .error _ =>
      let r := retryLoop maxBackoff rest (nextBackoff maxBackoff backoff)
      (backoff :: r.1, r.2)

/-- The worker's outer loop (lines 84-117) restricted to its backoff
behaviour: for each height pulled from the queue, the retry loop starts
from the configured base delay again (`let backoff = retryBackoffMs`,
line 87, is inside the outer loop).  Input pairs a height with the attempt
outcomes for it; output pairs it with the delays slept for it. -/
def workerDelays (base maxBackoff : ℕ) (hs : List (ℕ × List Attempt)) :
    List (ℕ × List ℕ) :=
  hs.map fun p => (p.1, (retryLoop maxBackoff p.2 base).1)

/-- An attempt where every stage succeeds. -/
def okAttempt : Attempt := ⟨.ok (), .ok (), .ok ()⟩

/-- An attempt whose block fetch throws (a transient network failure). -/
def fetchFailAttempt (msg : String) : Attempt := ⟨.error msg, .ok (), .ok ()⟩

/-- An attempt where fetch and sink succeed but the checkpoint write inside
`markCompleted` throws. -/
def commitFailAttempt (msg : String) : Attempt := ⟨.ok (), .ok (), .error msg⟩

/-- `k` failing attempts followed by a successful one. -/
def failsThenOk (k : ℕ) : List Attempt :=
  List.replicate k (fetchFailAttempt "rpc error") ++ [okAttempt]

/-- The backoff value in force for the `n`-th retry of a height (0-based):
the base delay, then doubled-and-capped after each failure. -/
def backoffAt (base maxBackoff : ℕ) : ℕ → ℕ
  | 0 => base
  | n + 1 => nextBackoff maxBackoff (backoffAt base maxBackoff n)

lemma backoffAt_shift (base maxBackoff n : ℕ) :
    backoffAt (nextBackoff maxBackoff base) maxBackoff n =
      backoffAt base maxBackoff (n + 1) := by
  induction n with
  | zero => rfl
  | succ n ih => simp only [backoffAt, ih]

lemma tryBody_okAttempt : tryBody okAttempt = .ok () := rfl

lemma tryBody_fetchFail (msg : String) :
    tryBody (fetchFailAttempt msg) = .error msg := rfl

lemma tryBody_commitFail (msg : String) :
    tryBody (commitFailAttempt msg) = .error msg := rfl

lemma retryLoop_cons_ok {a : Attempt} (h : tryBody a = .ok ())
    (maxBackoff b : ℕ) (rest : List Attempt) :
    retryLoop maxBackoff (a :: rest) b = ([], true) := by
  simp [retryLoop, h]

lemma retryLoop_cons_error {a : Attempt} {msg : String}
    (h : tryBody a = .error msg) (maxBackoff b : ℕ) (rest : List Attempt) :
    retryLoop maxBackoff (a :: rest) b =
      (b :: (retryLoop maxBackoff rest (nextBackoff maxBackoff b)).1,
        (retryLoop maxBackoff rest (nextBackoff maxBackoff b)).2) := by
  simp [retryLoop, h]

lemma retryLoop_failsThenOk (maxBackoff k : ℕ) :
    ∀ b : ℕ, retryLoop maxBackoff (failsThenOk k) b =
      ((List.range k).map (backoffAt b maxBackoff), true) := by
  induction k with
  | zero =>
    intro b
    rw [show failsThenOk 0 = [okAttempt] from rfl,
      retryLoop_cons_ok tryBody_okAttempt]
    simp
  | succ k ih =>
    intro b
    have hcons : failsThenOk (k + 1) = fetchFailAttempt "rpc error" :: failsThenOk k := by
      simp [failsThenOk, List.replicate_succ]
    rw [hcons, retryLoop_cons_error (tryBody_fetchFail _), ih (nextBackoff maxBackoff b)]
    simp only [List.range_succ_eq_map, List.map_cons, List.map_map]
    refine congrArg (fun l => (b :: l, true)) ?_
    refine List.map_congr_left ?_
    intro n _
    simpa [Function.comp, Nat.succ_eq_add_one] using backoffAt_shift b maxBackoff n

lemma backoffAt_formula (base maxBackoff : ℕ) (hb : base ≤ maxBackoff) (n : ℕ) :
    backoffAt base maxBackoff n = min (base * 2 ^ n) maxBackoff := by
  induction n with
  | zero => simp [backoffAt, Nat.min_eq_left hb]
  | succ n ih =>
    have hp : base * 2 ^ (n + 1) = base * 2 ^ n * 2 := by ring
    simp only [backoffAt, nextBackoff, ih, hp]
    generalize base * 2 ^ n = x
    omega

/-! ### Run orchestration (`scan-runner.ts`, lines 39-122) -/

/-- One worker of the failure-free run model: pull heights from the shared
queue until `getNextHeight` signals exhaustion; for each height, invoke the
event sink (`processXdmEvents`) — recorded in the returned list — and then
`markCompleted`.  The model serializes the pool, letting one worker run to
exhaustion before the next; with the queue and tracker both
mutex-serialized in the source, this is one admissible interleaving. -/
def workerRun : List ℕ → Tracker → List ℕ × Tracker
  | [], t => ([], t)
  | h :: rest, t =>
    let r := workerRun rest (markCompleted t h)
    (h :: r.1, r.2)

/-- `await Promise.all(Array.from({length: blockConcurrency}, () => worker()))`
(line 120): the join barrier over the whole pool.  Every worker runs and
terminates; the result lists the heights each worker processed (its event
sink invocations). -/
def joinWorkers : ℕ → List ℕ → Tracker → List (List ℕ) × Tracker
  | 0, _, t => ([], t)
  | n + 1, q, t =>
    let r := workerRun q t
    let rest := joinWorkers n [] r.2
    (r.1 :: rest.1, rest.2)

/-- The observable outcome of a completed `runScan` call: per-worker lists
of processed heights (event-sink invocations), the final tracker state, and
the completion signal (`runScan` resolves its promise; the code after the
join, line 121, runs unconditionally — there is no short-circuit path). -/
structure RunSummary where
  perWorkerProcessed : List (List ℕ)
  tracker : Tracker
  completedNormally : Bool
deriving DecidableEq

/-- Failure-free model of `runScan` (lines 39-122): resolve the scan start
from the requested start and the persisted checkpoint, build the height
queue and tracker, run the worker pool to the join, and signal
completion. -/
def runScanModel (start e : ℕ) (resumeFrom : Option ℕ)
    (blockConcurrency : ℕ) : RunSummary :=
  let s := scanStartOf start resumeFrom
  let r := joinWorkers blockConcurrency (heightQueue s e) (initTracker s)
  ⟨r.1, r.2, true⟩

lemma joinWorkers_nil (n : ℕ) (t : Tracker) :
    joinWorkers n [] t = (List.replicate n [], t) := by
  induction n with
  | zero => rfl
  | succ n ih => simp [joinWorkers, workerRun, ih, List.replicate_succ]

/-! ### The naive consensus-capture variant (`capture-consensus.ts`) -/

/-- Program counter of one naive worker: about to call `getNextHeight`
(line 45), holding a height and suspended at the block fetch awaits
(lines 50-52), or returned. -/
inductive NaiveWorker where
  | idle : NaiveWorker
  | fetching : ℕ → NaiveWorker
  | done : NaiveWorker
deriving DecidableEq

/-- Shared state of the naive variant: the unguarded allocation cursor
`nextHeight` (line 34), each worker's program counter, the log of
`setLastProcessedBlockHeight` calls (line 56), and the log of heights whose
`processXdmEvents` call has run (line 59). -/
structure NaiveState where
  nextHeight : ℕ
  workers : List NaiveWorker
  checkpointWrites : List ℕ
  processed : List ℕ
deriving DecidableEq

def naiveInit (scanStart workerCount : ℕ) : NaiveState :=
  ⟨scanStart, List.replicate workerCount .idle, [], []⟩

/-- One scheduler step of the naive variant, advancing worker `w` to its
next await boundary.  An idle worker runs the synchronous `getNextHeight`
(lines 36-41): past `END` it returns; otherwise it takes the cursor height
and starts fetching.  A fetching worker, on resuming from the awaits with
no error, hits lines 54-57 — at every 100th height it writes that height to
the checkpoint store unconditionally, before `processXdmEvents` and with no
regard to lower heights — then processes the block and loops back to idle.
A returned worker does nothing. -/
def naiveStep (e : ℕ) (st : NaiveState) (w : ℕ) : NaiveState :=
  match st.workers.getD w .done with
  | .done => st
  | .idle =>
    if st.nextHeight > e then
      { st with workers := st.workers.set w .done }
    else
      { st with
          workers := st.workers.set w (.fetching st.nextHeight),
          nextHeight := st.nextHeight + 1 }
  | .fetching h =>
    { st with
        workers := st.workers.set w .idle,
        checkpointWrites :=
          if h % 100 == 0 then st.checkpointWrites ++ [h] else st.checkpointWrites,
        processed := st.processed ++ [h] }

/-- Run the naive variant under an explicit schedule: each entry names the
worker that advances one step. -/
def naiveRun (e : ℕ) (sched : List ℕ) (st : NaiveState) : NaiveState :=
  sched.foldl (naiveStep e) st

/-! ### Startup precondition of `capture-consensus.ts` (lines 8-9, 21-23) -/

/-- A JavaScript number as produced by `Number(process.env.X)` for a height
configuration variable: `NaN` when the variable is unset or does not parse
as a number, otherwise a numeric value. -/
inductive JSNum where
  | nan : JSNum
  | num : ℤ → JSNum
deriving DecidableEq

/-- JavaScript truthiness of such a number: `NaN` and `0` are falsy. -/
def truthy : JSNum → Bool
  | .nan => false
  | .num n => n != 0

/-- The outcome of the naive variant's `main` (lines 20-23): the number of
workers spawned and either the thrown startup error or normal completion.
`main` first checks `if (!rpcEndpoints || !START || !END) throw ...`;
`rpcEndpoints` is the (always truthy) array from `split(',')`, so the check
is decided by the truthiness of the parsed start and end heights.  Only
when it passes does `main` go on to spawn `BLOCK_CONCURRENCY` workers. -/
structure MainOutcome where
  spawnedWorkers : ℕ
  result : Except String Unit

def mainModel (start e : JSNum) (blockConcurrency : ℕ) : MainOutcome :=
  if !(truthy start) || !(truthy e) then
    ⟨0, .error "CONSENSUS_RPC_URL, CONSENSUS_START_HEIGHT, CONSENSUS_END_HEIGHT are required"⟩
  else
    ⟨blockConcurrency, .ok ()⟩

/-! ### Auxiliary list lemmas -/

lemma runMarks_append (p q : List ℕ) (t : Tracker) :
    runMarks (p ++ q) t = runMarks q (runMarks p t) := by
  simp [runMarks, List.foldl_append]

lemma chain'_succ_range' (s n : ℕ) :
    List.Chain' (fun a b => b = a + 1) (List.range' s n) := by
  induction n generalizing s with
  | zero => simp
  | succ n ih =>
    cases n with
    | zero => simp
    | succ m =>
      rw [List.range'_succ, List.range'_succ]
      refine List.chain'_cons.mpr ⟨rfl, ?_⟩
      rw [← List.range'_succ]
      exact ih (s + 1)

lemma filterMap_id_map_some_append_replicate (l : List ℕ) (r : ℕ) :
    ((l.map some ++ List.replicate r none).filterMap id) = l := by
  rw [List.filterMap_append, List.filterMap_map]
  have h1 : (List.filterMap (id ∘ some) l) = l := by
    simp [Function.comp]
  have h2 : (List.replicate r (none : Option ℕ)).filterMap id = [] :=
    List.filterMap_replicate_of_none rfl
  rw [h1, h2, List.append_nil]

/-! ### Claim theorems -/

/-- C1.  Prefix-only commit: for every serialized sequence of
`markCompleted(height)` calls over the run's range `[scanStart, end]`, in
any order, (i) every checkpoint value persisted at any point of the
sequence is a height `w` such that every height in `[scanStart, w]` had
already been reported complete at that point; (ii) the final commit cursor
bounds exactly the `k` with `[scanStart, k]` fully reported, so the final
checkpoint equals the largest such `k`; and (iii) once every height in the
range is reported, the last persisted checkpoint is exactly `end`. -/
theorem prefix_only_commit (s e : ℕ) (ms : List ℕ)
    (hse : s ≤ e) (hrange : ∀ h ∈ ms, s ≤ h ∧ h ≤ e) :
    (∀ p, p <+: ms → ∀ w ∈ (runMarks p (initTracker s)).checkpointWrites,
        ∀ i, s ≤ i → i ≤ w → i ∈ p) ∧
    (∀ k, s ≤ k →
      ((∀ i, s ≤ i → i ≤ k → i ∈ ms) ↔
        k < (runMarks ms (initTracker s)).nextToCommit)) ∧
    ((∀ i, s ≤ i → i ≤ e → i ∈ ms) →
      (runMarks ms (initTracker s)).checkpointWrites.getLast? = some e) := by
  obtain ⟨i1, i2, i3, i4, i5, i6⟩ := trackerInv_run s ms
  refine ⟨?_, ?_, ?_⟩
  · intro p _ w hw i hsi hiw
    obtain ⟨j1, j2, j3, j4, j5, j6⟩ := trackerInv_run s p
    rw [j6, List.mem_range'_1] at hw
    have : i ∈ p.toFinset := j4 i hsi (by omega)
    exact List.mem_toFinset.mp this
  · intro k hk
    constructor
    · intro hcov
      by_contra hkc
      push_neg at hkc
      have hcur : (runMarks ms (initTracker s)).nextToCommit ∈ ms :=
        hcov _ i1 (by omega)
      exact i2 (i5 _ le_rfl (List.mem_toFinset.mpr hcur))
    · intro hkc i hsi hik
      exact List.mem_toFinset.mp (i4 i hsi (by omega))
  · intro hcov
    have hub : (runMarks ms (initTracker s)).nextToCommit ≤ e + 1 := by
      by_contra hc
      push_neg at hc
      have : e + 1 ∈ ms.toFinset := i4 (e + 1) (by omega) (by omega)
      have := (hrange _ (List.mem_toFinset.mp this)).2
      omega
    have hlb : e < (runMarks ms (initTracker s)).nextToCommit := by
      by_contra hc
      push_neg at hc
      have hcur : (runMarks ms (initTracker s)).nextToCommit ∈ ms :=
        hcov _ i1 hc
      exact i2 (i5 _ le_rfl (List.mem_toFinset.mpr hcur))
    have hcur : (runMarks ms (initTracker s)).nextToCommit = e + 1 := by omega
    rw [i6, hcur, List.getLast?_range']
    have hpos : e + 1 - s ≠ 0 := by omega
    simp only [hpos, if_false]
    congr 1
    omega

/-- Witness for C1 at the concrete range `[0, 2]` with the out-of-order
completion sequence `[2, 0, 1]`. -/
theorem prefix_only_commit_witness :
    ((0 : ℕ) ≤ 2 ∧ ∀ h ∈ [2, 0, 1], 0 ≤ h ∧ h ≤ 2) ∧
    ((∀ p, p <+: [2, 0, 1] →
        ∀ w ∈ (runMarks p (initTracker 0)).checkpointWrites,
          ∀ i, 0 ≤ i → i ≤ w → i ∈ p) ∧
      (∀ k, 0 ≤ k →
        ((∀ i, 0 ≤ i → i ≤ k → i ∈ [2, 0, 1]) ↔
          k < (runMarks [2, 0, 1] (initTracker 0)).nextToCommit)) ∧
      ((∀ i, 0 ≤ i → i ≤ 2 → i ∈ [2, 0, 1]) →
        (runMarks [2, 0, 1] (initTracker 0)).checkpointWrites.getLast? = some 2)) :=
  ⟨⟨by decide, by decide⟩, prefix_only_commit 0 2 [2, 0, 1] (by decide) (by decide)⟩

/-- C7.  Commit cursor monotonicity: along any serialized sequence of
`markCompleted` calls, the checkpoint log of a call-prefix is a prefix of
the final log (a written value is never revised or revisited), the cursor
is monotonically non-decreasing, the log is exactly the consecutive
heights from the scan start below the cursor — so its length equals the
total cursor advance (one write per unit step), it is a chain of
increments by exactly one, and it is strictly increasing.  In the
embedding, the checkpoint log is a field of the tracker mutated by
`markCompleted` alone, mirroring that only the tracker calls
`setLastProcessedBlockHeight` in `runScan`. -/
theorem commit_cursor_monotonic (s : ℕ) (p ms : List ℕ) (hp : p <+: ms) :
    (runMarks p (initTracker s)).checkpointWrites <+:
      (runMarks ms (initTracker s)).checkpointWrites ∧
    (runMarks p (initTracker s)).nextToCommit ≤
      (runMarks ms (initTracker s)).nextToCommit ∧
    (runMarks ms (initTracker s)).checkpointWrites =
      List.range' s ((runMarks ms (initTracker s)).nextToCommit - s) ∧
    (runMarks ms (initTracker s)).checkpointWrites.length =
      (runMarks ms (initTracker s)).nextToCommit - s ∧
    List.Chain' (fun a b => b = a + 1)
      (runMarks ms (initTracker s)).checkpointWrites ∧
    (runMarks ms (initTracker s)).checkpointWrites.Pairwise (fun a b => a < b) := by
  obtain ⟨q, rfl⟩ := hp
  have i6 := (trackerInv_run s (p ++ q)).2.2.2.2.2
  refine ⟨?_, ?_, i6, ?_, ?_, ?_⟩
  · rw [runMarks_append]
    exact checkpointWrites_prefix_runMarks q _
  · rw [runMarks_append]
    exact nextToCommit_le_runMarks q _
  · rw [i6, List.length_range']
  · rw [i6]
    exact chain'_succ_range' s _
  · rw [i6]
    exact List.pairwise_lt_range' s _

/-- Witness for C7 at the call sequence `[1, 0, 2]` with prefix `[1, 0]`
from scan start `0`. -/
theorem commit_cursor_monotonic_witness :
    ([1, 0] <+: [1, 0, 2]) ∧
    ((runMarks [1, 0] (initTracker 0)).checkpointWrites <+:
      (runMarks [1, 0, 2] (initTracker 0)).checkpointWrites ∧
    (runMarks [1, 0] (initTracker 0)).nextToCommit ≤
      (runMarks [1, 0, 2] (initTracker 0)).nextToCommit ∧
    (runMarks [1, 0, 2] (initTracker 0)).checkpointWrites =
      List.range' 0 ((runMarks [1, 0, 2] (initTracker 0)).nextToCommit - 0) ∧
    (runMarks [1, 0, 2] (initTracker 0)).checkpointWrites.length =
      (runMarks [1, 0, 2] (initTracker 0)).nextToCommit - 0 ∧
    List.Chain' (fun a b => b = a + 1)
      (runMarks [1, 0, 2] (initTracker 0)).checkpointWrites ∧
    (runMarks [1, 0, 2] (initTracker 0)).checkpointWrites.Pairwise
      (fun a b => a < b)) :=
  ⟨⟨[2], rfl⟩, commit_cursor_monotonic 0 [1, 0] [1, 0, 2] ⟨[2], rfl⟩⟩

/-- C4.  Start resolution (`scan-runner.ts`, lines 56-57): the resolved
scan start is `max(start, c)` when a checkpoint `c` is persisted and
`start` when none is; consequently, every checkpoint value a re-run writes
is at least the already-persisted `c` — the persisted checkpoint never
decreases across a resume. -/
theorem start_resolution (start c : ℕ) (resumeFrom : Option ℕ) (ms : List ℕ) :
    (resumeFrom = some c → scanStartOf start resumeFrom = max start c) ∧
    (resumeFrom = none → scanStartOf start resumeFrom = start) ∧
    (resumeFrom = some c →
      ∀ w ∈ (runMarks ms (initTracker (scanStartOf start resumeFrom))).checkpointWrites,
        c ≤ w) := by
  refine ⟨?_, ?_, ?_⟩
  · rintro rfl
    rfl
  · rintro rfl
    simp [scanStartOf]
  · rintro rfl w hw
    have i6 := (trackerInv_run (scanStartOf start (some c)) ms).2.2.2.2.2
    rw [i6, List.mem_range'_1] at hw
    have hs : c ≤ scanStartOf start (some c) := by
      simp [scanStartOf]
    omega

/-- Witness for C4 at requested start `3`, persisted checkpoint `7`, and
the completion sequence `[7]`. -/
theorem start_resolution_witness :
    scanStartOf 3 (some 7) = max 3 7 ∧
    scanStartOf 3 none = 3 ∧
    ∀ w ∈ (runMarks [7] (initTracker (scanStartOf 3 (some 7)))).checkpointWrites,
      7 ≤ w :=
  ⟨(start_resolution 3 7 (some 7) [7]).1 rfl,
    (start_resolution 3 0 none [7]).2.1 rfl,
    (start_resolution 3 7 (some 7) [7]).2.2 rfl⟩

/-- C5 (amended).  Duplicate completion of an already-flushed height `h`
(one strictly below the commit cursor) does not move the cursor and writes
no checkpoint; however, the call is not a complete no-op on the tracker
state: `completedHeights.add(height)` re-inserts `h` into the pending set
(where it stays, inert, below the cursor), so the resulting state differs
from the previous one exactly by that insertion. -/
theorem duplicate_completion_inert (s h : ℕ) (ms : List ℕ)
    (hflushed : h < (runMarks ms (initTracker s)).nextToCommit) :
    markCompleted (runMarks ms (initTracker s)) h =
      { runMarks ms (initTracker s) with
          completedHeights :=
            insert h (runMarks ms (initTracker s)).completedHeights } ∧
    (markCompleted (runMarks ms (initTracker s)) h).nextToCommit =
      (runMarks ms (initTracker s)).nextToCommit ∧
    (markCompleted (runMarks ms (initTracker s)) h).checkpointWrites =
      (runMarks ms (initTracker s)).checkpointWrites := by
  have i2 := (trackerInv_run s ms).2.1
  set t := runMarks ms (initTracker s) with ht
  have hnot : t.nextToCommit ∉ insert h t.completedHeights := by
    rw [Finset.mem_insert]
    push_neg
    exact ⟨by omega, i2⟩
  have hdrain : drain t.nextToCommit (insert h t.completedHeights) =
      (t.nextToCommit, insert h t.completedHeights, []) := by
    rw [drain, drainAux_not_mem _ _ _ hnot]
  refine ⟨?_, ?_, ?_⟩ <;> simp [markCompleted, hdrain]

/-- Witness for C5's amended statement: after completing heights `0` and
`1` from scan start `0`, height `0` is flushed; re-reporting it moves
nothing but re-inserts it. -/
theorem duplicate_completion_inert_witness :
    (0 < (runMarks [0, 1] (initTracker 0)).nextToCommit) ∧
    (markCompleted (runMarks [0, 1] (initTracker 0)) 0 =
      { runMarks [0, 1] (initTracker 0) with
          completedHeights :=
            insert 0 (runMarks [0, 1] (initTracker 0)).completedHeights } ∧
    (markCompleted (runMarks [0, 1] (initTracker 0)) 0).nextToCommit =
      (runMarks [0, 1] (initTracker 0)).nextToCommit ∧
    (markCompleted (runMarks [0, 1] (initTracker 0)) 0).checkpointWrites =
      (runMarks [0, 1] (initTracker 0)).checkpointWrites) :=
  ⟨by decide, duplicate_completion_inert 0 0 [0, 1] (by decide)⟩

/-- Counterexample to C5 as stated: with scan start `0`, complete height
`0` (it flushes; the pending set is empty), then report `0` again.  The
tracker state changes — the pending set becomes `{0}` — and the claimed
invariant that every member of the pending set is strictly greater than
the commit cursor fails for the re-inserted member `0 < 1`. -/
theorem duplicate_completion_counterexample :
    markCompleted (markCompleted (initTracker 0) 0) 0 ≠
      markCompleted (initTracker 0) 0 ∧
    0 ∈ (markCompleted (markCompleted (initTracker 0) 0) 0).completedHeights ∧
    ¬ (∀ m ∈ (markCompleted (markCompleted (initTracker 0) 0) 0).completedHeights,
        (markCompleted (markCompleted (initTracker 0) 0) 0).nextToCommit < m) := by
  refine ⟨by decide, by decide, by decide⟩

/-- C3.  No double allocation: draining the height allocator over
`[scanStart, end]` with at least `end + 1 - scanStart` calls yields (as the
non-null results, in order) exactly the heights `scanStart, …, end` — no
height twice, none skipped — the queue is then exhausted, and every
further call returns the end-of-work signal `none`; the allocator has no
error outcome at all (its result type is `Option ℕ`). -/
theorem no_double_allocation (s e calls : ℕ) (hse : s ≤ e)
    (hcalls : e + 1 - s ≤ calls) :
    (drainQueue calls (heightQueue s e)).1.filterMap id =
      List.range' s (e + 1 - s) ∧
    ((drainQueue calls (heightQueue s e)).1.filterMap id).Nodup ∧
    (∀ h, h ∈ (drainQueue calls (heightQueue s e)).1.filterMap id ↔
      s ≤ h ∧ h ≤ e) ∧
    (drainQueue calls (heightQueue s e)).2 = [] ∧
    (∀ m, drainQueue m (drainQueue calls (heightQueue s e)).2 =
      (List.replicate m none, [])) := by
  have hlen : (heightQueue s e).length = e + 1 - s := by
    simp [heightQueue]
  obtain ⟨h1, h2⟩ := drainQueue_spec calls (heightQueue s e) (by omega)
  have hfm : (drainQueue calls (heightQueue s e)).1.filterMap id =
      List.range' s (e + 1 - s) := by
    rw [h1, hlen, heightQueue]
    exact filterMap_id_map_some_append_replicate _ _
  refine ⟨hfm, ?_, ?_, h2, ?_⟩
  · rw [hfm]
    exact List.nodup_range' s _
  · intro h
    rw [hfm, List.mem_range'_1]
    omega
  · intro m
    rw [h2]
    obtain ⟨g1, g2⟩ := drainQueue_spec m [] (Nat.zero_le m)
    simp only [List.map_nil, List.length_nil, Nat.sub_zero, List.nil_append] at g1
    exact Prod.ext g1 g2

/-- Witness for C3 at the range `[1, 3]` drained with `5` calls. -/
theorem no_double_allocation_witness :
    ((1 : ℕ) ≤ 3 ∧ 3 + 1 - 1 ≤ 5) ∧
    ((drainQueue 5 (heightQueue 1 3)).1.filterMap id =
      List.range' 1 (3 + 1 - 1) ∧
    ((drainQueue 5 (heightQueue 1 3)).1.filterMap id).Nodup ∧
    (∀ h, h ∈ (drainQueue 5 (heightQueue 1 3)).1.filterMap id ↔
      1 ≤ h ∧ h ≤ 3) ∧
    (drainQueue 5 (heightQueue 1 3)).2 = [] ∧
    (∀ m, drainQueue m (drainQueue 5 (heightQueue 1 3)).2 =
      (List.replicate m none, []))) :=
  ⟨⟨by decide, by decide⟩, no_double_allocation 1 3 5 (by decide) (by decide)⟩

/-- C8.  Empty range: when the resolved scan start exceeds `end`, the
height queue is empty, so the run processes zero heights — every one of
the `blockConcurrency` workers joins with an empty list of event-sink
invocations, no checkpoint write occurs — and the run still reaches its
normal completion through the same join over all workers (the model, like
the source, has no short-circuit or failure path for this case). -/
theorem empty_range_completes (start e blockConcurrency : ℕ)
    (resumeFrom : Option ℕ) (h : e < scanStartOf start resumeFrom) :
    (runScanModel start e resumeFrom blockConcurrency).perWorkerProcessed =
      List.replicate blockConcurrency [] ∧
    (runScanModel start e resumeFrom blockConcurrency).perWorkerProcessed.length =
      blockConcurrency ∧
    (runScanModel start e resumeFrom blockConcurrency).tracker.checkpointWrites = [] ∧
    (runScanModel start e resumeFrom blockConcurrency).completedNormally = true := by
  have hq : heightQueue (scanStartOf start resumeFrom) e = [] := by
    rw [heightQueue, List.range'_eq_nil]
    omega
  refine ⟨?_, ?_, ?_, rfl⟩ <;>
    simp [runScanModel, hq, joinWorkers_nil, initTracker]

/-- Witness for C8 with requested start `5`, no checkpoint, `end = 3`, and
two workers. -/
theorem empty_range_completes_witness :
    (3 < scanStartOf 5 none) ∧
    ((runScanModel 5 3 none 2).perWorkerProcessed = List.replicate 2 [] ∧
    (runScanModel 5 3 none 2).perWorkerProcessed.length = 2 ∧
    (runScanModel 5 3 none 2).tracker.checkpointWrites = [] ∧
    (runScanModel 5 3 none 2).completedNormally = true) :=
  ⟨by decide, empty_range_completes 5 3 2 none (by decide)⟩

/-- C2 (amended).  A thrown checkpoint write is retried, not fatal: in the
worker loop of `scan-runner.ts` the call `await markCompleted(h)` sits
inside the per-height `try` (lines 89-110), so when
`setLastProcessedBlockHeight` throws during commit, the worker's `catch`
handles it exactly like a transient per-height failure — sleep the current
backoff, double it (capped), and retry the height — and the error does not
propagate out of the run.  The result of handling a commit-failure attempt
is identical to that of handling a transient fetch-failure attempt. -/
theorem checkpoint_write_failure_retried (maxBackoff b : ℕ)
    (rest : List Attempt) (msg tmsg : String) :
    retryLoop maxBackoff (commitFailAttempt msg :: rest) b =
      (b :: (retryLoop maxBackoff rest (nextBackoff maxBackoff b)).1,
        (retryLoop maxBackoff rest (nextBackoff maxBackoff b)).2) ∧
    retryLoop maxBackoff (commitFailAttempt msg :: rest) b =
      retryLoop maxBackoff (fetchFailAttempt tmsg :: rest) b := by
  have h1 := retryLoop_cons_error (tryBody_commitFail msg) maxBackoff b rest
  have h2 := retryLoop_cons_error (tryBody_fetchFail tmsg) maxBackoff b rest
  exact ⟨h1, by rw [h1, h2]⟩

/-- Counterexample to C2 as stated: a height whose first attempt fails only
in the checkpoint write (fetch and sink succeed) and whose second attempt
succeeds.  The worker sleeps the base backoff (`1000`) and retries — the
height completes and nothing propagates; the outcome is byte-for-byte the
outcome of a transient network failure, contradicting "not retried;
propagates out of the run and terminates it". -/
theorem checkpoint_write_failure_counterexample :
    retryLoop 10000 [commitFailAttempt "sqlite write failed", okAttempt] 1000 =
      ([1000], true) ∧
    retryLoop 10000 [commitFailAttempt "sqlite write failed", okAttempt] 1000 =
      retryLoop 10000 [fetchFailAttempt "network error", okAttempt] 1000 := by
  exact ⟨rfl, rfl⟩

/-- C6 (amended).  Backoff growth and reset: the first retry delay of a
height is the base delay (uncapped), and every later delay doubles the
previous one, capped at the maximum; whenever the configured base delay is
at most the configured maximum — as with the defaults 1000ms / 10000ms —
the `n`-th delay equals `min(base * 2^n, maxBackoff)` for all `n`, and
after a height succeeds, the delays of the next height restart from the
base delay (the backoff variable is re-initialized per height, line 87). -/
theorem backoff_growth_and_reset (base maxBackoff k j h1 h2 : ℕ)
    (hb : base ≤ maxBackoff) :
    workerDelays base maxBackoff [(h1, failsThenOk k), (h2, failsThenOk j)] =
      [(h1, (List.range k).map fun n => min (base * 2 ^ n) maxBackoff),
       (h2, (List.range j).map fun n => min (base * 2 ^ n) maxBackoff)] := by
  have hmap : backoffAt base maxBackoff = fun n => min (base * 2 ^ n) maxBackoff :=
    funext (backoffAt_formula base maxBackoff hb)
  simp [workerDelays, retryLoop_failsThenOk, hmap]

/-- Witness for C6's amended statement: base `1`, cap `4`, a height with
three failures then success followed by a height with two failures then
success; the delays are `[1, 2, 4]` then `[1, 2]` — growth, cap, and
reset. -/
theorem backoff_growth_and_reset_witness :
    (1 : ℕ) ≤ 4 ∧
    workerDelays 1 4 [(10, failsThenOk 3), (11, failsThenOk 2)] =
      [(10, (List.range 3).map fun n => min (1 * 2 ^ n) 4),
       (11, (List.range 2).map fun n => min (1 * 2 ^ n) 4)] :=
  ⟨by decide, backoff_growth_and_reset 1 4 3 2 10 11 (by decide)⟩

/-- Counterexample to C6 as stated: with base delay `3` and maximum `2`,
the code's first retry delay is the uncapped base `3` (the worker sleeps
`backoff` before the first doubling-and-capping on line 114), while the
claimed formula `min(base * 2^0, maxBackoff)` gives `2`. -/
theorem backoff_formula_counterexample :
    (retryLoop 2 (failsThenOk 1) 3).1 = [3] ∧
    min (3 * 2 ^ 0) 2 = 2 ∧ (3 : ℕ) ≠ 2 := by
  exact ⟨rfl, by decide, by decide⟩

/-- C9.  Naive-variant checkpoint unsafety: in `capture-consensus.ts`,
which writes the checkpoint at every 100th height unconditionally (lines
54-57), there is an interleaving of two workers over the range
`[99, 100]` — worker 0 takes 99 and stalls at its fetch awaits while
worker 1 takes 100, resumes, and commits — after which checkpoint `100` is
persisted while height `99` of the range has not been processed: the
contiguous-prefix commit property of the ordered variant fails here. -/
theorem naive_checkpoint_unsafe :
    ∃ sched : List ℕ,
      ∃ w ∈ (naiveRun 100 sched (naiveInit 99 2)).checkpointWrites,
        ∃ l, 99 ≤ l ∧ l < w ∧
          l ∉ (naiveRun 100 sched (naiveInit 99 2)).processed := by
  refine ⟨[0, 1, 1], 100, ?_, 99, ?_, ?_, ?_⟩ <;> decide

/-- C10.  Zero-height configuration rejection: the startup check of
`capture-consensus.ts` (`if (!rpcEndpoints || !START || !END) throw`,
lines 21-23) tests JavaScript truthiness of the `Number`-parsed start and
end heights, so a configured height of `0` — just like an unset or
non-numeric variable, which parses to `NaN` — makes `main` throw the
missing-configuration error with zero workers spawned; height `0` can
never be requested as a range bound through this entry point. -/
theorem zero_height_config_rejected (start e : JSNum) (blockConcurrency : ℕ)
    (h : start = .num 0 ∨ start = .nan ∨ e = .num 0 ∨ e = .nan) :
    (mainModel start e blockConcurrency).result =
      .error "CONSENSUS_RPC_URL, CONSENSUS_START_HEIGHT, CONSENSUS_END_HEIGHT are required" ∧
    (mainModel start e blockConcurrency).spawnedWorkers = 0 := by
  have hfal : (!(truthy start) || !(truthy e)) = true := by
    rcases h with rfl | rfl | rfl | rfl <;> simp [truthy]
  rw [mainModel, if_pos hfal]
  exact ⟨rfl, rfl⟩

/-- Witness for C10: start height configured as `0`, end as `7`. -/
theorem zero_height_config_rejected_witness :
    (JSNum.num 0 = JSNum.num 0 ∨ JSNum.num 0 = JSNum.nan ∨
      JSNum.num 7 = JSNum.num 0 ∨ JSNum.num 7 = JSNum.nan) ∧
    ((mainModel (.num 0) (.num 7) 8).result =
      .error "CONSENSUS_RPC_URL, CONSENSUS_START_HEIGHT, CONSENSUS_END_HEIGHT are required" ∧
    (mainModel (.num 0) (.num 7) 8).spawnedWorkers = 0) :=
  ⟨Or.inl rfl, zero_height_config_rejected (.num 0) (.num 7) 8 (Or.inl rfl)⟩

end NarrowSea
